import Mathlib

/-!
Verification development for a single-file terminal text editor (kilo.c).

The definitions below are a shallow embedding of the editor's data model and
operations, translated directly from the C source:

* rows hold raw characters, a derived render sequence (tabs expanded), a
  highlight-class sequence, and an "ends inside multi-line comment" flag;
* `syntaxScan` embeds the per-line scanning loop of `editorUpdateSyntax`;
* `updateSyntaxFrom` embeds the cross-line propagation of the open-comment flag;
* `renderOf` embeds `editorUpdateRow`'s tab expansion;
* `rowCxToRx` / `rowRxToCx` embed the column mapping functions;
* `editorInsertRow`, `editorDelRow`, `rowInsertChar`, `rowDelChar`,
  `rowAppendString`, `editorInsertNewline`, `editorOpenString` embed the
  row/buffer mutation paths, with machine integers modelled as `Int`/`Nat`;
* `decodeEscape` embeds the escape-sequence decoding of `editorReadKey`;
* `findScan` embeds the scanning loop of `editorFindCallback`;
* `processKeypress` embeds the quit-confirmation counter of
  `editorProcessKeypress`;
* `rowsToString` / `loadString` embed `editorRowsToString` and the line-reading
  loop of `editorOpen`.

`Reachable` is the transition closure of the buffer-mutating operations from
the empty initial state.
-/

namespace Kilo

/-- TAB_STOP from kilo.c. -/
def TAB_STOP : Nat := 8

/-- QUIT_TIMES from kilo.c. -/
def QUIT_TIMES : Nat := 3

/-- enum Highlight from kilo.c (HL_NORMAL .. HL_MATCH). -/
inductive HL where
  | normal
  | comment
  | mlcomment
  | keyword1
  | keyword2
  | hstring
  | number
  | hmatch
deriving DecidableEq, Repr

/-- The punctuation set from `isSeparator` in kilo.c (comma, dot, parens,
plus, minus, slash, star, equals, tilde, percent, angle brackets, square
brackets, colon, semicolon, braces). -/
def sepChars : List Char :=
  [',', '.', '(', ')', '+', '-', '/', '*', '=', '~', '%', '<', '>',
   '[', ']', ':', ';', '\x7b', '\x7d']

/-- C `isspace` on the default locale (space, \t, \n, \v, \f, \r). -/
def isspaceC (c : Char) : Bool :=
  c = ' ' || c = '\t' || c = '\n' || c = '\x0b' || c = '\x0c' || c = '\r'

/-- `isSeparator` from kilo.c: whitespace, NUL, or a fixed punctuation set. -/
def isSeparator (c : Char) : Bool :=
  isspaceC c || c = '\x00' || sepChars.contains c

/-- struct Syntax from kilo.c.  A keyword ending in `|` is a keyword-2 (the
sentinel is stripped before matching).  Empty marker lists model NULL /
zero-length markers (the C code guards on `strlen(...) != 0`).  The two flag
bits HL_NUMBERS and HL_STRINGS are modelled as two booleans. -/
structure Syntax where
  keywords : List (List Char)
  scs : List Char
  mcs : List Char
  mce : List Char
  hlNumbers : Bool
  hlStrings : Bool
deriving DecidableEq, Repr

/-- C_KW from kilo.c (keywords of the C syntax profile; `|` marks keyword-2). -/
def C_KW : List (List Char) :=
  ["switch", "if", "while", "for", "break", "continue", "return", "else",
   "struct", "union", "typedef", "static", "enum", "class", "case",
   "int|", "long|", "double|", "float|", "char|", "unsigned|", "signed|",
   "void|", "size_t|", "ssize_t|", "bool|"].map String.toList

/-- The single HLDB entry from kilo.c: the C filetype profile. -/
def cSyntax : Syntax :=
  { keywords := C_KW
    scs := "//".toList
    mcs := "/*".toList
    mce := "*/".toList
    hlNumbers := true
    hlStrings := true }

/-- Scanner state of the `editorUpdateSyntax` loop: the highlight array, the
position `i`, `prev_sep`, `in_string` (the quote character when nonzero) and
`in_comment`. -/
structure ScanSt where
  hl : List HL
  i : Nat
  prevSep : Bool
  inString : Option Char
  inComment : Bool
deriving DecidableEq, Repr

/-- `memset(&hl[start], v, len)` on a highlight list. -/
def setRange (l : List HL) (start len : Nat) (v : HL) : List HL :=
  l.mapIdx (fun j x => if start ≤ j ∧ j < start + len then v else x)

/-- The keyword-table walk inside `editorUpdateSyntax`: find the first keyword
that is an exact prefix of `render` at `i` and is immediately followed by a
separator (the position one past a match at the end of the line reads the NUL
terminator, which is a separator).  Returns the stripped keyword length and
whether it is a keyword-2. -/
def kwMatch (render : List Char) (i : Nat) : List (List Char) → Option (Nat × Bool)
  | [] => none
  | kw :: rest =>
    let kw2 := kw.getLast? == some '|'
    let k := if kw2 then kw.dropLast else kw
    if k.isPrefixOf (render.drop i) && isSeparator (render.getD (i + k.length) '\x00') then
      some (k.length, kw2)
    else kwMatch render i rest

/-- One-for-one embedding of the `while (i < row->rsize)` loop of
`editorUpdateSyntax`.  The fuel argument counts loop iterations; since every
iteration of the C loop advances `i` by at least one (markers are nonempty when
their branch is enabled, and no keyword of the profiles used here is empty),
`render.length` iterations suffice to drain the loop. -/
def scanLoop (syn : Syntax) (render : List Char) : Nat → ScanSt → ScanSt
  | 0, st => st
  | fuel + 1, st =>
    if hlt : st.i < render.length then
      let c := render.get ⟨st.i, hlt⟩
      let prevHl := if st.i = 0 then HL.normal else st.hl.getD (st.i - 1) HL.normal
      -- single-line comment: classify the rest of the line and break
      if (¬ syn.scs.isEmpty) ∧ st.inString = none ∧ st.inComment = false ∧
          syn.scs.isPrefixOf (render.drop st.i) then
        { st with hl := setRange st.hl st.i (render.length - st.i) HL.comment,
                  i := render.length }
      -- multi-line comment, currently inside one
      else if (¬ syn.mcs.isEmpty) ∧ (¬ syn.mce.isEmpty) ∧ st.inString = none ∧
          st.inComment then
        if syn.mce.isPrefixOf (render.drop st.i) then
          scanLoop syn render fuel
            { st with hl := setRange st.hl st.i syn.mce.length HL.mlcomment,
                      i := st.i + syn.mce.length, inComment := false, prevSep := true }
        else
          scanLoop syn render fuel
            { st with hl := st.hl.set st.i HL.mlcomment, i := st.i + 1 }
      -- multi-line comment opener
      else if (¬ syn.mcs.isEmpty) ∧ (¬ syn.mce.isEmpty) ∧ st.inString = none ∧
          syn.mcs.isPrefixOf (render.drop st.i) then
        scanLoop syn render fuel
          { st with hl := setRange st.hl st.i syn.mcs.length HL.mlcomment,
                    i := st.i + syn.mcs.length, inComment := true }
      -- strings: inside a string, classify, honor one backslash escape,
      -- close on the matching quote
      else if syn.hlStrings ∧ st.inString ≠ none then
        if c = '\\' ∧ st.i + 1 < render.length then
          scanLoop syn render fuel
            { st with hl := (st.hl.set st.i HL.hstring).set (st.i + 1) HL.hstring,
                      i := st.i + 2 }
        else
          scanLoop syn render fuel
            { st with hl := st.hl.set st.i HL.hstring, i := st.i + 1,
                      prevSep := true,
                      inString := if some c = st.inString then none else st.inString }
      -- strings: an opening quote
      else if syn.hlStrings ∧ (c = '\x22' ∨ c = '\x27') then
        scanLoop syn render fuel
          { st with hl := st.hl.set st.i HL.hstring, i := st.i + 1,
                    inString := some c }
      -- numbers
      else if syn.hlNumbers ∧
          ((c.isDigit ∧ (st.prevSep ∨ prevHl = HL.number)) ∨
           (c = '.' ∧ prevHl = HL.number)) then
        scanLoop syn render fuel
          { st with hl := st.hl.set st.i HL.number, i := st.i + 1,
                    prevSep := false }
      else
        -- keywords (only attempted at a separator boundary), then the
        -- default advance
        match (if st.prevSep then kwMatch render st.i syn.keywords else none) with
        | some (klen, kw2) =>
          scanLoop syn render fuel
            { st with hl := setRange st.hl st.i klen
                        (if kw2 then HL.keyword2 else HL.keyword1),
                      i := st.i + klen, prevSep := false }
        | none =>
          scanLoop syn render fuel
            { st with prevSep := isSeparator c, i := st.i + 1 }
    else st

/-- `editorUpdateSyntax`'s per-line work: allocate a highlight array of the
render's length filled with HL_NORMAL, run the scanning loop, and report the
final highlight array together with the final `in_comment` state. -/
def syntaxScan (syn : Syntax) (render : List Char) (startInComment : Bool) :
    List HL × Bool :=
  let st0 : ScanSt :=
    { hl := List.replicate render.length HL.normal, i := 0, prevSep := true,
      inString := none, inComment := startInComment }
  let st := scanLoop syn render render.length st0
  (st.hl, st.inComment)


/-- One step of the column-mapping rule shared by `rowCxToRx` and `rowRxToCx`
in kilo.c: a tab advances the render column to the next multiple of TAB_STOP
(`rx += (TAB_STOP - 1) - (rx % TAB_STOP); rx++;`), any other character
advances it by one. -/
def cxStep (rx : Nat) (c : Char) : Nat :=
  if c = '\t' then rx + ((TAB_STOP - 1) - rx % TAB_STOP) + 1 else rx + 1

/-- The loop of `rowCxToRx`: walk the first `cx` characters accumulating the
render column. -/
def cxToRxGo : List Char → Nat → Nat → Nat
  | _, 0, rx => rx
  | [], _ + 1, rx => rx
  | c :: cs, n + 1, rx => cxToRxGo cs n (cxStep rx c)

/-- `rowCxToRx` from kilo.c: character column to render column. -/
def rowCxToRx (chars : List Char) (cx : Nat) : Nat :=
  cxToRxGo chars cx 0

/-- The loop of `rowRxToCx`: walk the characters accumulating `cur_rx`,
returning the character index at which the accumulated render column first
exceeds the target `rx` (or the line length if it never does). -/
def rxToCxGo (rx : Nat) : List Char → Nat → Nat → Nat
  | [], _, cx => cx
  | c :: cs, cur, cx =>
    let cur2 := cxStep cur c
    if rx < cur2 then cx else rxToCxGo rx cs cur2 (cx + 1)

/-- `rowRxToCx` from kilo.c: render column back to character column. -/
def rowRxToCx (chars : List Char) (rx : Nat) : Nat :=
  rxToCxGo rx chars 0 0

/-- One character of `editorUpdateRow`'s render construction: a tab emits a
space and then pads with spaces until the render length is a multiple of
TAB_STOP; any other character is copied. -/
def renderAppend (r : List Char) (c : Char) : List Char :=
  if c = '\t' then
    let r1 := r ++ [' ']
    r1 ++ List.replicate ((TAB_STOP - r1.length % TAB_STOP) % TAB_STOP) ' '
  else r ++ [c]

/-- `editorUpdateRow`'s render computation: tabs expanded to the next stop. -/
def renderOf (chars : List Char) : List Char :=
  chars.foldl renderAppend []

/-- struct Row from kilo.c.  `size` and `rsize` are the lengths of `chars` and
`render`; `idx` is the stored row-index field (a C int, modelled as `Int`). -/
structure Row where
  idx : Int
  chars : List Char
  render : List Char
  hl : List HL
  hl_open_comment : Bool
deriving DecidableEq, Repr

/-- The buffer-relevant fields of struct Editor from kilo.c: the row array,
the modified counter, and the selected syntax profile. -/
structure EState where
  rows : List Row
  dirty : Nat
  syn : Option Syntax
deriving DecidableEq, Repr

/-- `editorUpdateSyntax` from kilo.c, acting on the row at position `p` of the
row array.  With no active syntax the highlight array is reset to HL_NORMAL
and nothing else happens.  Otherwise the line is scanned with the initial
in-comment state taken from row `idx - 1`'s open-comment flag (`idx` being the
row's stored index field, exactly as the C code reads `E.row[row->idx - 1]`),
and if the row's resulting open-comment flag changed and `idx + 1 < numrows`,
the row at `idx + 1` is re-highlighted in turn.  `numrows` is passed
explicitly because `editorInsertRow` runs this before incrementing
`E.numrows`.  The fuel bounds the propagation chain; callers pass at least
`rows.length + 1`, which suffices since each recursive call moves one row
further down. -/
def updateSyntaxFrom (syn : Option Syntax) (numrows : Int) :
    Nat → List Row → Nat → List Row
  | 0, rows, _ => rows
  | fuel + 1, rows, p =>
    match rows[p]? with
    | none => rows
    | some r =>
      match syn with
      | none => rows.set p { r with hl := List.replicate r.render.length HL.normal }
      | some sy =>
        let inC : Bool := 0 < r.idx &&
          ((rows[(r.idx - 1).toNat]?).map Row.hl_open_comment).getD false
        let res := syntaxScan sy r.render inC
        let r2 : Row := { r with hl := res.1, hl_open_comment := res.2 }
        let rows2 := rows.set p r2
        if r.hl_open_comment ≠ res.2 ∧ r.idx + 1 < numrows then
          updateSyntaxFrom syn numrows fuel rows2 (r.idx + 1).toNat
        else rows2

/-- `editorUpdateRow` from kilo.c, acting on the row at position `p`:
recompute the render sequence from the raw characters, then run
`editorUpdateSyntax` on the row. -/
def editorUpdateRowPos (syn : Option Syntax) (numrows : Int)
    (rows : List Row) (p : Nat) : List Row :=
  match rows[p]? with
  | none => rows
  | some r =>
    updateSyntaxFrom syn numrows (rows.length + 1)
      (rows.set p { r with render := renderOf r.chars }) p

/-- `editorInsertRow` from kilo.c.  Out-of-range indices return without
effect.  Otherwise the new row is spliced in at `at`, the stored index fields
of all subsequent rows are incremented, and the new row's render and highlight
state are computed; `E.numrows` is incremented only afterwards, so the syntax
propagation runs with the old row count. -/
def editorInsertRow (st : EState) (at_ : Int) (s : List Char) : EState :=
  if at_ < 0 ∨ at_ > (st.rows.length : Int) then st
  else
    let a := at_.toNat
    let newRow : Row := { idx := at_, chars := s, render := [], hl := [],
                          hl_open_comment := false }
    let rows1 := st.rows.take a ++ newRow ::
      (st.rows.drop a).map (fun r => { r with idx := r.idx + 1 })
    { st with rows := editorUpdateRowPos st.syn (st.rows.length : Int) rows1 a,
              dirty := st.dirty + 1 }

/-- `editorDelRow` from kilo.c.  Out-of-range indices return without effect.
Otherwise the row is removed and the stored index fields of all subsequent
rows are decremented. -/
def editorDelRow (st : EState) (at_ : Int) : EState :=
  if at_ < 0 ∨ at_ ≥ (st.rows.length : Int) then st
  else
    let a := at_.toNat
    let rows1 := st.rows.take a ++
      (st.rows.drop (a + 1)).map (fun r => { r with idx := r.idx - 1 })
    { st with rows := rows1, dirty := st.dirty + 1 }

/-- `editorRowInsertChar` (named `rowInsertChar` in kilo.c), acting on the row
at position `p`: an out-of-range insertion column is clamped to the row size,
the character is spliced in, and the row is re-rendered and re-highlighted. -/
def rowInsertChar (st : EState) (p : Nat) (at_ : Int) (c : Char) : EState :=
  match st.rows[p]? with
  | none => st
  | some r =>
    let a := if at_ < 0 ∨ at_ > (r.chars.length : Int) then r.chars.length
             else at_.toNat
    let r1 := { r with chars := r.chars.take a ++ c :: r.chars.drop a }
    { st with
      rows := editorUpdateRowPos st.syn (st.rows.length : Int) (st.rows.set p r1) p,
      dirty := st.dirty + 1 }

/-- `rowDelChar` from kilo.c, acting on the row at position `p`: out-of-range
columns return without effect; otherwise the character is removed and the row
is re-rendered and re-highlighted. -/
def rowDelChar (st : EState) (p : Nat) (at_ : Int) : EState :=
  match st.rows[p]? with
  | none => st
  | some r =>
    if at_ < 0 ∨ at_ ≥ (r.chars.length : Int) then st
    else
      let a := at_.toNat
      let r1 := { r with chars := r.chars.take a ++ r.chars.drop (a + 1) }
      { st with
        rows := editorUpdateRowPos st.syn (st.rows.length : Int) (st.rows.set p r1) p,
        dirty := st.dirty + 1 }

/-- `rowAppendString` from kilo.c, acting on the row at position `p`: the
string is appended to the raw characters and the row is re-rendered and
re-highlighted. -/
def rowAppendString (st : EState) (p : Nat) (s : List Char) : EState :=
  match st.rows[p]? with
  | none => st
  | some r =>
    let r1 := { r with chars := r.chars ++ s }
    { st with
      rows := editorUpdateRowPos st.syn (st.rows.length : Int) (st.rows.set p r1) p,
      dirty := st.dirty + 1 }

/-- `editorInsertNewline` from kilo.c with the cursor at line `cy`, column
`cx`: at column 0 an empty row is inserted above; otherwise the tail of the
line from `cx` becomes a new row below, and the current line is truncated to
its first `cx` characters and re-rendered. -/
def editorInsertNewline (st : EState) (cy cx : Nat) : EState :=
  if cx = 0 then editorInsertRow st (cy : Int) []
  else
    match st.rows[cy]? with
    | none => st
    | some r =>
      let st1 := editorInsertRow st ((cy : Int) + 1) (r.chars.drop cx)
      match st1.rows[cy]? with
      | none => st1
      | some r2 =>
        let rows1 := st1.rows.set cy { r2 with chars := r2.chars.take cx }
        let rows2 := editorUpdateRowPos st1.syn (st1.rows.length : Int) rows1 cy
        { st1 with rows := rows2 }

/-- The trailing-CR/LF strip of `editorOpen`'s read loop
(`while (len > 0 && (line[len-1] == '\n' || line[len-1] == '\r')) len--;`). -/
def stripTrailCRLF (l : List Char) : List Char :=
  (l.reverse.dropWhile (fun c => c = '\n' || c = '\r')).reverse

/-- The recursion of `loadString`, driven by an explicit bound on the number
of lines (each chunk consumes at least one character, so `s.length` chunks
always suffice; the zero-fuel case is unreachable from `loadString`). -/
def loadStringGo : Nat → List Char → List (List Char)
  | _, [] => []
  | 0, _ :: _ => []
  | fuel + 1, a :: s' =>
    let line := (a :: s').takeWhile (fun c => c != '\n')
    stripTrailCRLF line :: loadStringGo fuel ((a :: s').drop (line.length + 1))

/-- The `getline` loop of `editorOpen`: split the file content into
newline-delimited chunks (a final chunk without a newline is also a line) and
strip trailing CR/LF from each. -/
def loadString (s : List Char) : List (List Char) :=
  loadStringGo s.length s

/-- `editorRowsToString` from kilo.c: each row's raw characters followed by a
newline. -/
def rowsToString (rows : List Row) : List Char :=
  rows.foldr (fun r acc => r.chars ++ '\n' :: acc) []

/-- `editorOpen` from kilo.c on in-memory file content: insert each stripped
line at the end of the buffer, then clear the modified counter. -/
def editorOpenString (syn : Option Syntax) (s : List Char) : EState :=
  let st0 : EState := { rows := [], dirty := 0, syn := syn }
  let st1 := (loadString s).foldl
    (fun st l => editorInsertRow st (st.rows.length : Int) l) st0
  { st1 with dirty := 0 }

/-- `editorSave`'s effect on the editor state after a successful write: the
modified counter is cleared (the file content written is
`rowsToString st.rows`). -/
def editorSaveOk (st : EState) : EState :=
  { st with dirty := 0 }

/-- The match-overlay mutation of `editorFindCallback`:
`memset(&row->hl[match - row->render], HL_MATCH, strlen(query))` paints the
matched span of the row's highlight array. -/
def rowOverlayMatch (st : EState) (p off len : Nat) : EState :=
  match st.rows[p]? with
  | none => st
  | some r =>
    let rows1 := st.rows.set p { r with hl := setRange r.hl off len HL.hmatch }
    { st with rows := rows1 }

/-- The snapshot-restore mutation of `editorFindCallback`:
`memcpy(E.row[saved_hl_line].hl, saved_hl, rsize)` overwrites the row's
highlight array with a same-length saved copy.  This over-approximates the
restore (any same-length replacement is allowed), which is sound for proving
invariants over the reachable states. -/
def rowSetHl (st : EState) (p : Nat) (hl2 : List HL) : EState :=
  match st.rows[p]? with
  | none => st
  | some r =>
    if hl2.length = r.hl.length then
      { st with rows := st.rows.set p { r with hl := hl2 } }
    else st

/-- The editor states reachable through the buffer-mutating operations of
kilo.c: the initial empty buffer, opening a file, row insertion/deletion,
character insertion/deletion, row append (line join), newline insertion (line
split), the search callback's highlight overlay and restore, and a successful
save. -/
inductive Reachable : EState → Prop where
  | init (syn : Option Syntax) :
      Reachable { rows := [], dirty := 0, syn := syn }
  | openFile (syn : Option Syntax) (s : List Char) :
      Reachable (editorOpenString syn s)
  | insRow {st} (at_ : Int) (s : List Char) :
      Reachable st → Reachable (editorInsertRow st at_ s)
  | delRow {st} (at_ : Int) :
      Reachable st → Reachable (editorDelRow st at_)
  | insChar {st} (p : Nat) (at_ : Int) (c : Char) :
      Reachable st → Reachable (rowInsertChar st p at_ c)
  | delChar {st} (p : Nat) (at_ : Int) :
      Reachable st → Reachable (rowDelChar st p at_)
  | appendStr {st} (p : Nat) (s : List Char) :
      Reachable st → Reachable (rowAppendString st p s)
  | newline {st} (cy cx : Nat) :
      Reachable st → Reachable (editorInsertNewline st cy cx)
  | overlay {st} (p off len : Nat) :
      Reachable st → Reachable (rowOverlayMatch st p off len)
  | setHl {st} (p : Nat) (hl2 : List HL) :
      Reachable st → Reachable (rowSetHl st p hl2)
  | save {st} :
      Reachable st → Reachable (editorSaveOk st)

/-! Key decoding (`editorReadKey`). -/

/-- enum Key from kilo.c, as the int values `editorReadKey` returns. -/
def KEY_ARROW_LEFT : Nat := 1000
def KEY_ARROW_RIGHT : Nat := 1001
def KEY_ARROW_UP : Nat := 1002
def KEY_ARROW_DOWN : Nat := 1003
def KEY_DEL : Nat := 1004
def KEY_HOME : Nat := 1005
def KEY_END : Nat := 1006
def KEY_PAGE_UP : Nat := 1007
def KEY_PAGE_DOWN : Nat := 1008

/-- The escape branch of `editorReadKey` from kilo.c: after an escape byte has
been consumed, decode from the stream of available bytes.  The end of the list
models a read that times out (`read(...) != 1`), upon which the decoder
returns a bare escape (27).  The first two bytes are `seq[0]` and `seq[1]`; a
bracket-digit sequence reads a third byte `seq[2]`. -/
def decodeEscape (bytes : List Char) : Nat :=
  match bytes with
  | [] => 27
  | [_] => 27
  | s0 :: s1 :: rest =>
    if s0 = '[' then
      if '0' ≤ s1 ∧ s1 ≤ '9' then
        match rest with
        | [] => 27
        | s2 :: _ =>
          if s2 = '~' then
            if s1 = '1' then KEY_HOME
            else if s1 = '3' then KEY_DEL
            else if s1 = '4' then KEY_END
            else if s1 = '5' then KEY_PAGE_UP
            else if s1 = '6' then KEY_PAGE_DOWN
            else if s1 = '7' then KEY_HOME
            else if s1 = '8' then KEY_END
            else 27
          else 27
      else
        if s1 = 'A' then KEY_ARROW_UP
        else if s1 = 'B' then KEY_ARROW_DOWN
        else if s1 = 'C' then KEY_ARROW_RIGHT
        else if s1 = 'D' then KEY_ARROW_LEFT
        else if s1 = 'H' then KEY_HOME
        else if s1 = 'F' then KEY_END
        else 27
    else if s0 = 'O' then
      if s1 = 'H' then KEY_HOME
      else if s1 = 'F' then KEY_END
      else 27
    else 27

/-! Search (`editorFindCallback`). -/

/-- `strstr(hay, pat) != NULL`: `pat` occurs as a contiguous substring. -/
def containsSub (hay pat : List Char) : Bool :=
  (List.range (hay.length + 1)).any (fun i => pat.isPrefixOf (hay.drop i))

/-- One advance of the scan position in `editorFindCallback`:
`current += direction`, then wrap `-1` to the last row and `numrows` to 0. -/
def findStep (n : Int) (cur dir : Int) : Int :=
  let c1 := cur + dir
  let c2 := if c1 = -1 then n - 1 else c1
  if c2 = n then 0 else c2

/-- The scan loop of `editorFindCallback`: at most `numrows` advances from the
current position, stopping at the first row whose rendered content contains
the query. -/
def findLoopGo (rrows : List (List Char)) (q : List Char) (dir : Int) :
    Nat → Int → Option Nat
  | 0, _ => none
  | k + 1, cur =>
    let c := findStep (rrows.length : Int) cur dir
    if containsSub (rrows.getD c.toNat []) q then some c.toNat
    else findLoopGo rrows q dir k c

/-- The row-finding behaviour of `editorFindCallback` for a search keystroke:
starting from `lastMatch` (−1 when there is no prior match, which also forces
the direction forward), scan in direction `dir0` with wrap-around and return
the index of the first row whose rendered content contains the query. -/
def findScan (rrows : List (List Char)) (q : List Char)
    (lastMatch dir0 : Int) : Option Nat :=
  let dir := if lastMatch = -1 then 1 else dir0
  findLoopGo rrows q dir rrows.length lastMatch

/-! Quit confirmation (`editorProcessKeypress`). -/

/-- The state carried by `editorProcessKeypress`'s quit confirmation: the
static `quit_times` counter, the modified counter `E.dirty`, and whether
`exit(0)` has run. -/
structure QuitSt where
  quit_times : Nat
  dirty : Nat
  exited : Bool
deriving DecidableEq, Repr

/-- The keypress classes relevant to the quit counter: Ctrl-Q, a
buffer-modifying key, and any other key. -/
inductive KKey where
  | ctrlQ
  | edit
  | other
deriving DecidableEq, Repr

/-- The quit-confirmation logic of `editorProcessKeypress` from kilo.c: on
Ctrl-Q with a dirty buffer and a positive counter, warn and decrement the
counter and return (skipping the reset at the end); on Ctrl-Q otherwise,
exit.  Every other key falls through to `quit_times = QUIT_TIMES`; a
buffer-modifying key also increments the modified counter. -/
def processKeypress (st : QuitSt) (k : KKey) : QuitSt :=
  if st.exited then st
  else
    match k with
    | KKey.ctrlQ =>
      if st.dirty ≠ 0 ∧ 0 < st.quit_times then
        { st with quit_times := st.quit_times - 1 }
      else { st with exited := true }
    | KKey.edit => { st with dirty := st.dirty + 1, quit_times := QUIT_TIMES }
    | KKey.other => { st with quit_times := QUIT_TIMES }

/-- A run of consecutive Ctrl-Q keypresses. -/
def quitPresses : Nat → QuitSt → QuitSt
  | 0, st => st
  | n + 1, st => quitPresses n (processKeypress st KKey.ctrlQ)

/-! Helper lemmas: lengths and projections preserved by the highlighter. -/

lemma setRange_length (l : List HL) (s n : Nat) (v : HL) :
    (setRange l s n v).length = l.length := by
  simp [setRange]

lemma scanLoop_hl_length (syn : Syntax) (render : List Char) :
    ∀ (fuel : Nat) (st : ScanSt),
      (scanLoop syn render fuel st).hl.length = st.hl.length := by
  intro fuel
  induction fuel with
  | zero => intro st; rfl
  | succ n ih =>
    intro st
    simp only [scanLoop]
    split
    · repeat' split
      all_goals simp [ih, setRange_length, List.length_set]
    · rfl

lemma syntaxScan_length (syn : Syntax) (render : List Char) (b : Bool) :
    (syntaxScan syn render b).1.length = render.length := by
  simp [syntaxScan, scanLoop_hl_length]

/-- The row at position `i` has a highlight array of the render's length. -/
def hlOkAt (rows : List Row) (i : Nat) : Prop :=
  ∀ r, rows[i]? = some r → r.hl.length = r.render.length

/-- The row at position `i` stores `i` in its index field. -/
def idxOkAt (rows : List Row) (i : Nat) : Prop :=
  ∀ r, rows[i]? = some r → r.idx = (i : Int)

lemma updateSyntaxFrom_length (syn : Option Syntax) (numrows : Int) :
    ∀ (fuel : Nat) (rows : List Row) (p : Nat),
      (updateSyntaxFrom syn numrows fuel rows p).length = rows.length := by
  intro fuel
  induction fuel with
  | zero => intro rows p; rfl
  | succ n ih =>
    intro rows p
    simp only [updateSyntaxFrom]
    split
    · rfl
    · split
      · simp [List.length_set]
      · split
        · simp [ih, List.length_set]
        · simp [List.length_set]

lemma updateSyntaxFrom_proj (syn : Option Syntax) (numrows : Int) :
    ∀ (fuel : Nat) (rows : List Row) (p i : Nat),
      ((updateSyntaxFrom syn numrows fuel rows p)[i]?).map
          (fun r => (r.idx, r.chars, r.render)) =
        (rows[i]?).map (fun r => (r.idx, r.chars, r.render)) := by
  intro fuel
  induction fuel with
  | zero => intro rows p i; rfl
  | succ n ih =>
    intro rows p i
    have hset : ∀ (r r2 : Row), rows[p]? = some r →
        r2.idx = r.idx → r2.chars = r.chars → r2.render = r.render →
        ((rows.set p r2)[i]?).map (fun r => (r.idx, r.chars, r.render)) =
          (rows[i]?).map (fun r => (r.idx, r.chars, r.render)) := by
      intro r r2 hp h1 h2 h3
      rcases eq_or_ne p i with rfl | hne
      · have hlt : p < rows.length := (List.getElem?_eq_some.mp hp).1
        rw [List.getElem?_set_eq_of_lt _ hlt, hp]
        simp [h1, h2, h3]
      · rw [List.getElem?_set_ne hne]
    simp only [updateSyntaxFrom]
    split
    · rfl
    case _ r hp =>
      split
      · exact hset r _ hp rfl rfl rfl
      · split
        · rw [ih]
          exact hset r _ hp rfl rfl rfl
        · exact hset r _ hp rfl rfl rfl

lemma hlOkAt_set_good {rows : List Row} {p : Nat} {r2 : Row}
    (hgood : r2.hl.length = r2.render.length) {i : Nat}
    (h : i ≠ p → hlOkAt rows i) : hlOkAt (rows.set p r2) i := by
  intro r hr
  rcases eq_or_ne p i with rfl | hne
  · rcases Nat.lt_or_ge p rows.length with hlt | hge
    · rw [List.getElem?_set_eq_of_lt _ hlt] at hr
      cases hr
      exact hgood
    · rw [List.getElem?_len_le (by simpa using hge)] at hr
      cases hr
  · rw [List.getElem?_set_ne hne] at hr
    exact h (fun hc => hne hc.symm) r hr

lemma updateSyntaxFrom_hlOk_of_ok (syn : Option Syntax) (numrows : Int) :
    ∀ (fuel : Nat) (rows : List Row) (p : Nat),
      (∀ i, hlOkAt rows i) →
      ∀ i, hlOkAt (updateSyntaxFrom syn numrows fuel rows p) i := by
  intro fuel
  induction fuel with
  | zero => intro rows p h i; exact h i
  | succ n ih =>
    intro rows p h i
    simp only [updateSyntaxFrom]
    split
    · exact h i
    case _ r hp =>
      split
      · exact hlOkAt_set_good (by simp) (fun _ => h i)
      · split
        · exact ih _ _ (fun j => hlOkAt_set_good (by simp [syntaxScan_length]) (fun _ => h j)) i
        · exact hlOkAt_set_good (by simp [syntaxScan_length]) (fun _ => h i)

lemma updateSyntaxFrom_hlOk (syn : Option Syntax) (numrows : Int)
    (fuel : Nat) (rows : List Row) (p : Nat) (hfuel : 0 < fuel)
    (h : ∀ i, i ≠ p → hlOkAt rows i) :
    ∀ i, hlOkAt (updateSyntaxFrom syn numrows fuel rows p) i := by
  rcases fuel with _ | n
  · omega
  intro i
  simp only [updateSyntaxFrom]
  split
  case _ hp =>
    -- position p is out of range, so hlOkAt holds there vacuously
    intro r hr
    rcases eq_or_ne i p with rfl | hne
    · rw [hp] at hr; cases hr
    · exact h i hne r hr
  case _ r hp =>
    split
    · exact hlOkAt_set_good (by simp) (h i)
    · split
      · exact updateSyntaxFrom_hlOk_of_ok _ numrows n _ _
          (fun j => hlOkAt_set_good (by simp [syntaxScan_length]) (h j)) i
      · exact hlOkAt_set_good (by simp [syntaxScan_length]) (h i)

lemma editorUpdateRowPos_length (syn : Option Syntax) (numrows : Int)
    (rows : List Row) (p : Nat) :
    (editorUpdateRowPos syn numrows rows p).length = rows.length := by
  unfold editorUpdateRowPos
  split
  · rfl
  · rw [updateSyntaxFrom_length, List.length_set]

lemma editorUpdateRowPos_hlOk (syn : Option Syntax) (numrows : Int)
    (rows : List Row) (p : Nat) (h : ∀ i, hlOkAt rows i) :
    ∀ i, hlOkAt (editorUpdateRowPos syn numrows rows p) i := by
  unfold editorUpdateRowPos
  split
  · exact h
  case _ r hp =>
    exact updateSyntaxFrom_hlOk syn numrows _ _ p (by omega)
      (fun i hi => by
        intro r2 hr2
        rw [List.getElem?_set_ne (fun hc => hi hc.symm)] at hr2
        exact h i r2 hr2)

lemma editorUpdateRowPos_idx (syn : Option Syntax) (numrows : Int)
    (rows : List Row) (p i : Nat) :
    ((editorUpdateRowPos syn numrows rows p)[i]?).map Row.idx =
      (rows[i]?).map Row.idx := by
  unfold editorUpdateRowPos
  split
  · rfl
  case _ r hp =>
    have hproj := updateSyntaxFrom_proj syn numrows (rows.length + 1)
      (rows.set p { r with render := renderOf r.chars }) p i
    have hmap : ∀ (l : List Row) (j : Nat),
        (l[j]?).map Row.idx =
          ((l[j]?).map (fun r => (r.idx, r.chars, r.render))).map Prod.fst := by
      intro l j
      cases l[j]? <;> rfl
    rw [hmap, hmap, hproj]
    rcases eq_or_ne p i with rfl | hne
    · have hlt : p < rows.length := (List.getElem?_eq_some.mp hp).1
      rw [List.getElem?_set_eq_of_lt _ hlt, hp]
      rfl
    · rw [List.getElem?_set_ne hne]

/-- Buffer well-formedness: every row's highlight array has the render's
length, and every row's stored index field equals its position. -/
def WFrows (rows : List Row) : Prop :=
  (∀ i, hlOkAt rows i) ∧ (∀ i, idxOkAt rows i)

lemma idxOkAt_of_proj {l l2 : List Row}
    (hproj : ∀ i : Nat, (l2[i]?).map Row.idx = (l[i]?).map Row.idx)
    (h : ∀ i, idxOkAt l i) : ∀ i, idxOkAt l2 i := by
  intro i r hr
  have hpi := hproj i
  rw [hr] at hpi
  cases hl : l[i]? with
  | none => rw [hl] at hpi; simp at hpi
  | some r2 =>
    rw [hl] at hpi
    simp only [Option.map_some'] at hpi
    rw [Option.some_inj.mp hpi]
    exact h i r2 hl

lemma idxOkAt_set {rows : List Row} {p : Nat} {r r1 : Row}
    (hp : rows[p]? = some r) (hidx : r1.idx = r.idx)
    (h : ∀ i, idxOkAt rows i) : ∀ i, idxOkAt (rows.set p r1) i := by
  intro i r2 hr2
  rcases eq_or_ne p i with rfl | hne
  · have hlt : p < rows.length := (List.getElem?_eq_some.mp hp).1
    rw [List.getElem?_set_eq_of_lt _ hlt] at hr2
    cases hr2
    rw [hidx]
    exact h p r hp
  · rw [List.getElem?_set_ne hne] at hr2
    exact h i r2 hr2

/-- A row-content change followed by `editorUpdateRow` (the common pattern of
`rowInsertChar`, `rowDelChar`, `rowAppendString`, and the truncation in
`editorInsertNewline`) preserves buffer well-formedness. -/
lemma setThenUpdate_WF {rows : List Row} (hWF : WFrows rows) {p : Nat}
    {r : Row} (hp : rows[p]? = some r) (newChars : List Char)
    (syn : Option Syntax) (numrows : Int) :
    WFrows (editorUpdateRowPos syn numrows
      (rows.set p { r with chars := newChars }) p) := by
  obtain ⟨hhlOk, hidxOk⟩ := hWF
  constructor
  · refine editorUpdateRowPos_hlOk syn numrows _ p (fun i => ?_)
    refine hlOkAt_set_good ?_ (fun _ => hhlOk i)
    exact hhlOk p r hp
  · refine idxOkAt_of_proj (fun i => editorUpdateRowPos_idx syn numrows _ p i) ?_
    exact idxOkAt_set hp rfl hidxOk

/-- Positionwise description of the row-array splice in `editorInsertRow`. -/
lemma insert_splice_getElem (rows : List Row) (a : Nat) (ha : a ≤ rows.length)
    (nr : Row) (f : Row → Row) (i : Nat) :
    (rows.take a ++ nr :: (rows.drop a).map f)[i]? =
      if i < a then rows[i]?
      else if i = a then some nr
      else ((rows[i - 1]?).map f) := by
  have hlen : (rows.take a).length = a := by
    simp [List.length_take, Nat.min_eq_left ha]
  rw [List.getElem?_append, hlen]
  rcases Nat.lt_trichotomy i a with h | rfl | h
  · rw [if_pos h, if_pos h, List.getElem?_take, if_pos h]
  · rw [if_neg (lt_irrefl _), if_neg (lt_irrefl _), if_pos rfl, Nat.sub_self]
    simp
  · rw [if_neg (by omega), if_neg (by omega), if_neg (by omega)]
    have hsub : i - a = (i - a - 1) + 1 := by omega
    rw [hsub, List.getElem?_cons_succ, List.getElem?_map, List.getElem?_drop]
    congr 2
    omega

/-- Positionwise description of the row-array shift in `editorDelRow`. -/
lemma delete_splice_getElem (rows : List Row) (a : Nat) (ha : a ≤ rows.length)
    (f : Row → Row) (i : Nat) :
    (rows.take a ++ (rows.drop (a + 1)).map f)[i]? =
      if i < a then rows[i]? else ((rows[i + 1]?).map f) := by
  have hlen : (rows.take a).length = a := by
    simp [List.length_take, Nat.min_eq_left ha]
  rw [List.getElem?_append, hlen]
  rcases Nat.lt_or_ge i a with h | h
  · rw [if_pos h, if_pos h, List.getElem?_take, if_pos h]
  · rw [if_neg (by omega), if_neg (by omega), List.getElem?_map, List.getElem?_drop]
    congr 2
    omega

lemma editorInsertRow_WF {st : EState} (hWF : WFrows st.rows)
    (at_ : Int) (s : List Char) : WFrows (editorInsertRow st at_ s).rows := by
  unfold editorInsertRow
  split
  · exact hWF
  case _ hcond =>
    push_neg at hcond
    obtain ⟨h0, h1⟩ := hcond
    have haa : at_.toNat ≤ st.rows.length := by omega
    have hsplice := insert_splice_getElem st.rows at_.toNat haa
      { idx := at_, chars := s, render := [], hl := [], hl_open_comment := false }
      (fun r => { r with idx := r.idx + 1 })
    obtain ⟨hhlOk, hidxOk⟩ := hWF
    have hrows1hl : ∀ i, hlOkAt (st.rows.take at_.toNat ++
        { idx := at_, chars := s, render := [], hl := [],
          hl_open_comment := false } ::
        (st.rows.drop at_.toNat).map (fun r => { r with idx := r.idx + 1 })) i := by
      intro i r hr
      rw [hsplice i] at hr
      split at hr
      · exact hhlOk i r hr
      · split at hr
        · cases hr; rfl
        · cases hm : st.rows[i - 1]? with
          | none => rw [hm] at hr; simp at hr
          | some r2 =>
            rw [hm] at hr
            simp only [Option.map_some'] at hr
            cases hr
            exact hhlOk (i - 1) r2 hm
    have hrows1idx : ∀ i, idxOkAt (st.rows.take at_.toNat ++
        { idx := at_, chars := s, render := [], hl := [],
          hl_open_comment := false } ::
        (st.rows.drop at_.toNat).map (fun r => { r with idx := r.idx + 1 })) i := by
      intro i r hr
      rw [hsplice i] at hr
      split at hr
      case _ hlt =>
        exact hidxOk i r hr
      · split at hr
        case _ heq =>
          cases hr
          simp only
          omega
        case _ hne =>
          cases hm : st.rows[i - 1]? with
          | none => rw [hm] at hr; simp at hr
          | some r2 =>
            rw [hm] at hr
            simp only [Option.map_some'] at hr
            cases hr
            have := hidxOk (i - 1) r2 hm
            simp only
            rw [this]
            have hi : 1 ≤ i := by omega
            omega
    constructor
    · exact editorUpdateRowPos_hlOk _ _ _ _ hrows1hl
    · exact idxOkAt_of_proj (fun i => editorUpdateRowPos_idx _ _ _ _ i) hrows1idx

lemma editorDelRow_WF {st : EState} (hWF : WFrows st.rows) (at_ : Int) :
    WFrows (editorDelRow st at_).rows := by
  unfold editorDelRow
  split
  · exact hWF
  case _ hcond =>
    push_neg at hcond
    obtain ⟨h0, h1⟩ := hcond
    have haa : at_.toNat ≤ st.rows.length := by omega
    have hsplice := delete_splice_getElem st.rows at_.toNat haa
      (fun r => { r with idx := r.idx - 1 })
    obtain ⟨hhlOk, hidxOk⟩ := hWF
    constructor
    · intro i r hr
      rw [hsplice i] at hr
      split at hr
      · exact hhlOk i r hr
      · cases hm : st.rows[i + 1]? with
        | none => rw [hm] at hr; simp at hr
        | some r2 =>
          rw [hm] at hr
          simp only [Option.map_some'] at hr
          cases hr
          exact hhlOk (i + 1) r2 hm
    · intro i r hr
      rw [hsplice i] at hr
      split at hr
      · exact hidxOk i r hr
      case _ hge =>
        cases hm : st.rows[i + 1]? with
        | none => rw [hm] at hr; simp at hr
        | some r2 =>
          rw [hm] at hr
          simp only [Option.map_some'] at hr
          cases hr
          have := hidxOk (i + 1) r2 hm
          simp only
          rw [this]
          push_cast
          omega

lemma rowInsertChar_WF {st : EState} (hWF : WFrows st.rows)
    (p : Nat) (at_ : Int) (c : Char) : WFrows (rowInsertChar st p at_ c).rows := by
  unfold rowInsertChar
  split
  · exact hWF
  case _ r hp =>
    exact setThenUpdate_WF hWF hp _ _ _

lemma rowDelChar_WF {st : EState} (hWF : WFrows st.rows)
    (p : Nat) (at_ : Int) : WFrows (rowDelChar st p at_).rows := by
  unfold rowDelChar
  split
  · exact hWF
  case _ r hp =>
    split
    · exact hWF
    · exact setThenUpdate_WF hWF hp _ _ _

lemma rowAppendString_WF {st : EState} (hWF : WFrows st.rows)
    (p : Nat) (s : List Char) : WFrows (rowAppendString st p s).rows := by
  unfold rowAppendString
  split
  · exact hWF
  case _ r hp =>
    exact setThenUpdate_WF hWF hp _ _ _

lemma editorInsertNewline_WF {st : EState} (hWF : WFrows st.rows)
    (cy cx : Nat) : WFrows (editorInsertNewline st cy cx).rows := by
  unfold editorInsertNewline
  split
  · exact editorInsertRow_WF hWF _ _
  · split
    · exact hWF
    case _ r hr =>
      have h1 : WFrows (editorInsertRow st ((cy : Int) + 1) (r.chars.drop cx)).rows :=
        editorInsertRow_WF hWF _ _
      dsimp only
      split
      · exact h1
      case _ r2 hr2 =>
        exact setThenUpdate_WF h1 hr2 _ _ _

lemma editorOpenString_WF (syn : Option Syntax) (s : List Char) :
    WFrows (editorOpenString syn s).rows := by
  unfold editorOpenString
  have hfold : ∀ (ls : List (List Char)) (st : EState), WFrows st.rows →
      WFrows ((ls.foldl
        (fun st l => editorInsertRow st (st.rows.length : Int) l) st)).rows := by
    intro ls
    induction ls with
    | nil => intro st h; exact h
    | cons l ls ih =>
      intro st h
      exact ih _ (editorInsertRow_WF h _ _)
  exact hfold _ _ ⟨fun i r hr => by simp at hr, fun i r hr => by simp at hr⟩

lemma rowOverlayMatch_WF {st : EState} (hWF : WFrows st.rows)
    (p off len : Nat) : WFrows (rowOverlayMatch st p off len).rows := by
  unfold rowOverlayMatch
  split
  · exact hWF
  case _ r hp =>
    obtain ⟨hhlOk, hidxOk⟩ := hWF
    constructor
    · intro i
      refine hlOkAt_set_good ?_ (fun _ => hhlOk i)
      simp only [setRange_length]
      exact hhlOk p r hp
    · exact idxOkAt_set hp rfl hidxOk

lemma rowSetHl_WF {st : EState} (hWF : WFrows st.rows)
    (p : Nat) (hl2 : List HL) : WFrows (rowSetHl st p hl2).rows := by
  unfold rowSetHl
  split
  · exact hWF
  case _ r hp =>
    split
    case _ hlen =>
      obtain ⟨hhlOk, hidxOk⟩ := hWF
      constructor
      · intro i
        refine hlOkAt_set_good ?_ (fun _ => hhlOk i)
        simp only [hlen]
        exact hhlOk p r hp
      · exact idxOkAt_set hp rfl hidxOk
    · exact hWF

/-- Every reachable editor state is well-formed. -/
lemma reachable_WFrows {st : EState} (h : Reachable st) : WFrows st.rows := by
  induction h with
  | init syn => exact ⟨fun i r hr => by simp at hr, fun i r hr => by simp at hr⟩
  | openFile syn s => exact editorOpenString_WF syn s
  | insRow at_ s _ ih => exact editorInsertRow_WF ih at_ s
  | delRow at_ _ ih => exact editorDelRow_WF ih at_
  | insChar p at_ c _ ih => exact rowInsertChar_WF ih p at_ c
  | delChar p at_ _ ih => exact rowDelChar_WF ih p at_
  | appendStr p s _ ih => exact rowAppendString_WF ih p s
  | newline cy cx _ ih => exact editorInsertNewline_WF ih cy cx
  | overlay p off len _ ih => exact rowOverlayMatch_WF ih p off len
  | setHl p hl2 _ ih => exact rowSetHl_WF ih p hl2
  | save _ ih => exact ih

/-- C1: In every reachable editor state, every line's highlight-class sequence
has exactly the same length as its render sequence (`row->hl` holds one class
per rendered character, i.e. `rsize` entries); every operation that changes a
line's raw characters recomputes render and highlight together before
returning, so the invariant holds in every reachable state. -/
theorem c1_highlight_render_length {st : EState} (h : Reachable st) :
    ∀ r ∈ st.rows, r.hl.length = r.render.length := by
  intro r hr
  obtain ⟨n, hn, rfl⟩ := List.getElem_of_mem hr
  exact (reachable_WFrows h).1 n _ (List.getElem?_eq_getElem hn)

/-- Concrete reachable state used by the invariant witnesses: a C-highlighted
three-line buffer with one character inserted afterwards. -/
def witnessState : EState :=
  rowInsertChar (editorOpenString (some cSyntax) "int a;\n/* x\ny */\n".toList)
    0 0 'u'

theorem c1_witness :
    (witnessState.rows.get ⟨0, by decide⟩).hl.length =
      (witnessState.rows.get ⟨0, by decide⟩).render.length :=
  c1_highlight_render_length
    (Reachable.insChar 0 0 'u' (Reachable.openFile (some cSyntax) _))
    _ (List.get_mem _ _ _)

/-- C9: in every reachable editor state, each row's stored index field equals
its position in the buffer array (`E.row[i].idx == i`): `editorInsertRow` and
`editorDelRow` renumber all subsequent rows, and the highlighter reads
neighbouring lines through this field. -/
theorem c9_row_idx_invariant {st : EState} (h : Reachable st) :
    ∀ (i : Nat) (hi : i < st.rows.length),
      (st.rows.get ⟨i, hi⟩).idx = (i : Int) := by
  intro i hi
  exact (reachable_WFrows h).2 i _ (List.getElem?_eq_getElem hi)

theorem c9_witness :
    (witnessState.rows.get ⟨1, by decide⟩).idx = (1 : Int) :=
  c9_row_idx_invariant
    (Reachable.insChar 0 0 'u' (Reachable.openFile (some cSyntax) _))
    1 (by decide)

/-- C10: calling `editorInsertRow` with an index outside `[0, numrows]`, or
`editorDelRow` with an index outside `[0, numrows)`, leaves the entire editor
state unchanged: no row content or count changes and the modified counter is
not incremented. -/
theorem c10_out_of_range_row_ops (st : EState) (at_ : Int) (s : List Char) :
    (at_ < 0 ∨ at_ > (st.rows.length : Int) → editorInsertRow st at_ s = st) ∧
    (at_ < 0 ∨ at_ ≥ (st.rows.length : Int) → editorDelRow st at_ = st) := by
  constructor
  · intro h
    unfold editorInsertRow
    rw [if_pos h]
  · intro h
    unfold editorDelRow
    rw [if_pos h]

theorem c10_witness :
    editorInsertRow { rows := [], dirty := 0, syn := none } (-1) [] =
      { rows := [], dirty := 0, syn := none } ∧
    editorDelRow { rows := [], dirty := 0, syn := none } 0 =
      { rows := [], dirty := 0, syn := none } :=
  ⟨(c10_out_of_range_row_ops _ (-1) []).1 (Or.inl (by decide)),
   (c10_out_of_range_row_ops _ 0 []).2 (Or.inr (by decide))⟩

/-! Column-mapping lemmas (`rowCxToRx` / `rowRxToCx`). -/

lemma cxStep_lt (rx : Nat) (c : Char) : rx < cxStep rx c := by
  unfold cxStep
  split <;> omega

lemma cxToRxGo_zero (l : List Char) (rx : Nat) : cxToRxGo l 0 rx = rx := by
  cases l <;> rfl

lemma cxToRxGo_nil (n rx : Nat) : cxToRxGo [] n rx = rx := by
  cases n <;> rfl

lemma cxToRxGo_cons_succ (c : Char) (cs : List Char) (n rx : Nat) :
    cxToRxGo (c :: cs) (n + 1) rx = cxToRxGo cs n (cxStep rx c) := rfl

lemma le_cxToRxGo (l : List Char) : ∀ (n rx : Nat), rx ≤ cxToRxGo l n rx := by
  induction l with
  | nil => intro n rx; rw [cxToRxGo_nil]
  | cons c cs ih =>
    intro n rx
    cases n with
    | zero => rw [cxToRxGo_zero]
    | succ m =>
      rw [cxToRxGo_cons_succ]
      exact le_trans (le_of_lt (cxStep_lt rx c)) (ih m _)

lemma cxToRxGo_mono (l : List Char) :
    ∀ (m n rx : Nat), m ≤ n → cxToRxGo l m rx ≤ cxToRxGo l n rx := by
  induction l with
  | nil => intro m n rx _; rw [cxToRxGo_nil, cxToRxGo_nil]
  | cons c cs ih =>
    intro m n rx h
    cases m with
    | zero => rw [cxToRxGo_zero]; exact le_cxToRxGo _ _ _
    | succ m' =>
      cases n with
      | zero => omega
      | succ n' =>
        rw [cxToRxGo_cons_succ, cxToRxGo_cons_succ]
        exact ih m' n' _ (by omega)

lemma rxToCxGo_cons (rx : Nat) (c : Char) (cs : List Char) (cur cx : Nat) :
    rxToCxGo rx (c :: cs) cur cx =
      if rx < cxStep cur c then cx else rxToCxGo rx cs (cxStep cur c) (cx + 1) :=
  rfl

lemma rxToCxGo_inv (l : List Char) :
    ∀ (c rx0 cx0 : Nat), c ≤ l.length →
      rxToCxGo (cxToRxGo l c rx0) l rx0 cx0 = cx0 + c := by
  induction l with
  | nil =>
    intro c rx0 cx0 hc
    have : c = 0 := by simpa using hc
    subst this
    rfl
  | cons ch cs ih =>
    intro c rx0 cx0 hc
    cases c with
    | zero =>
      rw [cxToRxGo_zero, rxToCxGo_cons, if_pos (cxStep_lt rx0 ch)]
      omega
    | succ m =>
      rw [cxToRxGo_cons_succ, rxToCxGo_cons]
      have hle : cxStep rx0 ch ≤ cxToRxGo cs m (cxStep rx0 ch) :=
        le_cxToRxGo _ _ _
      rw [if_neg (by omega)]
      rw [ih m _ _ (by simpa using hc)]
      omega

/-- C2: for every line (tab stop width 8), the character-to-render mapping
satisfies `rowCxToRx(row, 0) == 0` and is monotonically non-decreasing in the
character column, and the render-to-character mapping inverts it:
`rowRxToCx(row, rowCxToRx(row, c)) == c` for every `0 <= c <= row.size`. -/
theorem c2_column_mapping (chars : List Char) :
    rowCxToRx chars 0 = 0 ∧
    (∀ c cp : Nat, c ≤ cp → rowCxToRx chars c ≤ rowCxToRx chars cp) ∧
    (∀ c : Nat, c ≤ chars.length → rowRxToCx chars (rowCxToRx chars c) = c) := by
  refine ⟨?_, ?_, ?_⟩
  · exact cxToRxGo_zero chars 0
  · intro c cp h
    exact cxToRxGo_mono chars c cp 0 h
  · intro c hc
    have := rxToCxGo_inv chars c 0 0 hc
    simpa [rowRxToCx, rowCxToRx] using this

theorem c2_witness :
    rowCxToRx "a\tb".toList 0 = 0 ∧
    rowCxToRx "a\tb".toList 2 ≤ rowCxToRx "a\tb".toList 3 ∧
    rowRxToCx "a\tb".toList (rowCxToRx "a\tb".toList 3) = 3 :=
  ⟨(c2_column_mapping _).1,
   (c2_column_mapping _).2.1 2 3 (by decide),
   (c2_column_mapping _).2.2 3 (by decide)⟩

/-- The four-line buffer of C3, opened with the C profile (block-comment
markers "/" + "*" and "*" + "/"). -/
def c3Buffer : EState :=
  editorOpenString (some cSyntax) "/* start\nmiddle\nend */\nafter\n".toList

/-- The C3 buffer after inserting a closing block-comment marker inside
line 1 (turning "middle" into "mid*" + "/dle"). -/
def c3Edited : EState :=
  rowInsertChar (rowInsertChar c3Buffer 1 3 '*') 1 4 '/'

/-- C3: with the C profile's block-comment markers, highlighting the buffer
["/* start", "middle", "end */", "after"] classifies lines 0 through 2 as
multi-line comment up through the close marker and line 3 as normal; after
inserting a closing marker inside line 1, the re-highlight of line 1 flips its
ends-inside-block-comment flag, which forces line 2 to be re-highlighted with
the new input state, re-classifying it as non-comment. -/
theorem c3_block_comment_propagation :
    c3Buffer.rows.map Row.chars =
      ["/* start".toList, "middle".toList, "end */".toList, "after".toList] ∧
    c3Buffer.rows.map Row.hl =
      [List.replicate 8 HL.mlcomment, List.replicate 6 HL.mlcomment,
       List.replicate 6 HL.mlcomment, List.replicate 5 HL.normal] ∧
    c3Buffer.rows.map Row.hl_open_comment = [true, true, false, false] ∧
    c3Edited.rows.map Row.chars =
      ["/* start".toList, "mid*/dle".toList, "end */".toList, "after".toList] ∧
    c3Edited.rows.map Row.hl =
      [List.replicate 8 HL.mlcomment,
       [HL.mlcomment, HL.mlcomment, HL.mlcomment, HL.mlcomment, HL.mlcomment,
        HL.normal, HL.normal, HL.normal],
       List.replicate 6 HL.normal, List.replicate 5 HL.normal] ∧
    c3Edited.rows.map Row.hl_open_comment = [true, false, false, false] := by
  decide

/-- C5: with keyword "if" (priority 1) in the active profile, the highlighter
never classifies the "if" inside "ifdef" as a keyword — a keyword match
requires the keyword's exact characters immediately followed by a separator,
so no partial matches inside longer identifiers occur — but it does classify
the "if" in "if(" as keyword-1. -/
theorem c5_keyword_boundary :
    HL.keyword1 ∉ (syntaxScan cSyntax "ifdef".toList false).1 ∧
    (syntaxScan cSyntax "ifdef".toList false).1 = List.replicate 5 HL.normal ∧
    (syntaxScan cSyntax "if(".toList false).1 =
      [HL.keyword1, HL.keyword1, HL.normal] := by
  decide

/-- C6: search scanning starts one past the last match in the current
direction and wraps at the buffer boundaries, stopping at the first line whose
rendered content contains the query: with the query only on line 0 of a
three-line buffer, a forward search whose last match is line 2 finds line 0,
and a backward search whose last match is line 0 also finds line 0; with the
query on lines 0 and 1, a forward search whose last match is line 0 finds
line 1 (one past the last match). -/
theorem c6_search_wrap :
    findScan ["foo".toList, "bar".toList, "qux".toList] "foo".toList 2 1 =
      some 0 ∧
    findScan ["foo".toList, "bar".toList, "qux".toList] "foo".toList 0 (-1) =
      some 0 ∧
    findScan ["foo".toList, "foo".toList, "x".toList] "foo".toList 0 1 =
      some 1 := by
  decide

/-- The quit-confirmation state with a fresh counter, a given modified
count, and the editor still running. -/
def freshQuitSt (d : Nat) : QuitSt :=
  { quit_times := QUIT_TIMES, dirty := d, exited := false }

/-- C4 counterexample: with unsaved changes (dirty nonzero) and a fresh
confirmation counter, three consecutive Ctrl-Q presses do NOT exit the editor:
each of the first three presses only warns and decrements the counter, and the
editor exits only when Ctrl-Q arrives with the counter already at zero. -/
theorem c4_counterexample :
    (quitPresses 3 (freshQuitSt 1)).exited = false := by
  decide

/-- C4 (amended): when the buffer has unsaved changes, FOUR consecutive quit
requests are required before the editor exits (the first three warn and
decrement the counter from QUIT_TIMES = 3 down to zero, the fourth exits), and
any intervening edit — indeed any non-quit key — resets the confirmation
counter to its initial value. -/
theorem c4_quit_confirmation (d : Nat) (hd : d ≠ 0) :
    (quitPresses 3 (freshQuitSt d)).exited = false ∧
    (quitPresses 4 (freshQuitSt d)).exited = true ∧
    (processKeypress (quitPresses 2 (freshQuitSt d)) KKey.edit).quit_times =
      QUIT_TIMES ∧
    (quitPresses 3 (processKeypress (quitPresses 2 (freshQuitSt d))
      KKey.edit)).exited = false := by
  simp [quitPresses, processKeypress, freshQuitSt, QUIT_TIMES, hd]

theorem c4_witness :
    (1 : Nat) ≠ 0 ∧
    ((quitPresses 3 (freshQuitSt 1)).exited = false ∧
     (quitPresses 4 (freshQuitSt 1)).exited = true ∧
     (processKeypress (quitPresses 2 (freshQuitSt 1)) KKey.edit).quit_times =
       QUIT_TIMES ∧
     (quitPresses 3 (processKeypress (quitPresses 2 (freshQuitSt 1))
       KKey.edit)).exited = false) :=
  ⟨by decide, c4_quit_confirmation 1 (by decide)⟩

/-- C8 counterexample: the decoder's result depends on a THIRD byte after the
escape byte — two input streams that agree on their first two bytes decode to
different keys — so "reads up to two more bytes" is not what the code does:
the bracket-digit sequences also consume a terminator byte. -/
theorem c8_counterexample :
    List.take 2 ['[', '5', '~'] = List.take 2 ['[', '5', 'x'] ∧
    decodeEscape ['[', '5', '~'] ≠ decodeEscape ['[', '5', 'x'] := by
  decide

set_option maxHeartbeats 1000000 in
/-- C8 (amended): after consuming an escape byte, the key decoder reads up to
THREE more bytes to decode the sequence (bracket plus letter yields
arrow/home/end; bracket, digit, then tilde terminator yields
delete/page/home/end variants; O plus letter yields home/end), and every
unrecognized or incomplete escape sequence yields a bare escape event (27)
rather than an error or an indefinite block: the result is determined by the
first three available bytes, an empty or one-byte stream yields escape, and
every result is either escape or a named key. -/
theorem c8_escape_decoding :
    (∀ bs : List Char, decodeEscape bs = decodeEscape (bs.take 3)) ∧
    (decodeEscape ['[', 'A'] = KEY_ARROW_UP ∧
     decodeEscape ['[', 'B'] = KEY_ARROW_DOWN ∧
     decodeEscape ['[', 'C'] = KEY_ARROW_RIGHT ∧
     decodeEscape ['[', 'D'] = KEY_ARROW_LEFT ∧
     decodeEscape ['[', 'H'] = KEY_HOME ∧
     decodeEscape ['[', 'F'] = KEY_END ∧
     decodeEscape ['[', '1', '~'] = KEY_HOME ∧
     decodeEscape ['[', '3', '~'] = KEY_DEL ∧
     decodeEscape ['[', '4', '~'] = KEY_END ∧
     decodeEscape ['[', '5', '~'] = KEY_PAGE_UP ∧
     decodeEscape ['[', '6', '~'] = KEY_PAGE_DOWN ∧
     decodeEscape ['[', '7', '~'] = KEY_HOME ∧
     decodeEscape ['[', '8', '~'] = KEY_END ∧
     decodeEscape ['O', 'H'] = KEY_HOME ∧
     decodeEscape ['O', 'F'] = KEY_END ∧
     decodeEscape [] = 27) ∧
    (∀ b : Char, decodeEscape [b] = 27) ∧
    (∀ bs : List Char, decodeEscape bs = 27 ∨
      decodeEscape bs ∈ [KEY_ARROW_LEFT, KEY_ARROW_RIGHT, KEY_ARROW_UP,
        KEY_ARROW_DOWN, KEY_DEL, KEY_HOME, KEY_END, KEY_PAGE_UP,
        KEY_PAGE_DOWN]) := by
  refine ⟨?_, by decide, ?_, ?_⟩
  · intro bs
    rcases bs with _ | ⟨a, _ | ⟨b, _ | ⟨c, t⟩⟩⟩ <;> rfl
  · intro b
    rfl
  · intro bs
    rcases bs with _ | ⟨a, _ | ⟨b, rest⟩⟩
    · exact Or.inl rfl
    · exact Or.inl rfl
    · cases rest <;>
        · simp only [decodeEscape]
          split_ifs <;> decide

/-! Save/load round-trip lemmas (C7). -/

lemma loadStringGo_nil (fuel : Nat) : loadStringGo fuel [] = [] := by
  cases fuel <;> rfl

lemma loadStringGo_cons (fuel : Nat) (a : Char) (s' : List Char) :
    loadStringGo (fuel + 1) (a :: s') =
      stripTrailCRLF ((a :: s').takeWhile (fun c => c != '\n')) ::
        loadStringGo fuel ((a :: s').drop
          (((a :: s').takeWhile (fun c => c != '\n')).length + 1)) := rfl

lemma loadStringGo_congr :
    ∀ (f1 f2 : Nat) (s : List Char), s.length ≤ f1 → s.length ≤ f2 →
      loadStringGo f1 s = loadStringGo f2 s := by
  intro f1
  induction f1 with
  | zero =>
    intro f2 s h1 _
    have hs : s = [] := List.length_eq_zero.mp (by omega)
    subst hs
    rw [loadStringGo_nil, loadStringGo_nil]
  | succ f1 ih =>
    intro f2 s h1 h2
    rcases s with _ | ⟨a, s'⟩
    · rw [loadStringGo_nil, loadStringGo_nil]
    · rcases f2 with _ | f2
      · simp at h2
      · rw [loadStringGo_cons, loadStringGo_cons]
        congr 1
        refine ih f2 _ ?_ ?_ <;>
          · rw [List.length_drop]
            simp only [List.length_cons] at h1 h2 ⊢
            omega

lemma takeWhile_append_newline (l t : List Char) (h : '\n' ∉ l) :
    (l ++ '\n' :: t).takeWhile (fun c => c != '\n') = l := by
  induction l with
  | nil => simp
  | cons a l ih =>
    have ha : a ≠ '\n' := fun hc => h (hc ▸ List.mem_cons_self a l)
    simp only [List.cons_append, List.takeWhile_cons]
    simp [ha, ih (fun hc => h (List.mem_cons_of_mem _ hc))]

lemma stripTrailCRLF_eq_self {l : List Char} (hr : l.getLast? ≠ some '\r')
    (hn : l.getLast? ≠ some '\n') : stripTrailCRLF l = l := by
  unfold stripTrailCRLF
  rcases hrev : l.reverse with _ | ⟨a, t⟩
  · simp [List.reverse_eq_nil_iff.mp hrev]
  · have ha : l.getLast? = some a := by
      rw [List.getLast?_eq_head?_reverse, hrev]
      rfl
    have h1 : a ≠ '\n' := fun hc => hn (by rw [ha, hc])
    have h2 : a ≠ '\r' := fun hc => hr (by rw [ha, hc])
    simp only [List.dropWhile_cons]
    simp only [h1, h2, decide_False, Bool.or_self, Bool.false_eq_true,
      if_false]
    rw [← hrev, List.reverse_reverse]

lemma loadString_append (l t : List Char) (h : '\n' ∉ l) :
    loadString (l ++ '\n' :: t) = stripTrailCRLF l :: loadString t := by
  have hne : ∃ a s', l ++ '\n' :: t = a :: s' := by
    rcases l with _ | ⟨a, l'⟩
    · exact ⟨'\n', t, rfl⟩
    · exact ⟨a, l' ++ '\n' :: t, rfl⟩
  obtain ⟨a, s', hs⟩ := hne
  unfold loadString
  have hlen : (l ++ '\n' :: t).length = (l.length + t.length) + 1 := by
    simp [List.length_append]
    omega
  rw [hlen, hs, loadStringGo_cons, ← hs, takeWhile_append_newline l t h]
  congr 1
  have hdrop : (l ++ '\n' :: t).drop (l.length + 1) = t := by
    have hassoc : l ++ '\n' :: t = (l ++ ['\n']) ++ t := by simp
    rw [hassoc, List.drop_left' (by simp)]
  rw [hdrop]
  exact loadStringGo_congr _ _ _ (by omega) (le_refl _)

/-- The reachable, unmodified buffer refuting C7: open a file whose single
line contains an interior carriage return, split the line right after the CR
(a newline insertion at line 0, column 3), and save.  The resulting state is
unmodified (dirty = 0) but its first line ends in a CR, which a reload
strips. -/
def c7State : EState :=
  editorSaveOk (editorInsertNewline (editorOpenString none "ab\rc\n".toList) 0 3)

/-- C7 counterexample: `c7State` is reachable and unmodified, yet flattening
its lines with the save operation and re-loading the blob does not reproduce
the same line contents (the trailing CR of line 0 is stripped on load). -/
theorem c7_counterexample :
    Reachable c7State ∧ c7State.dirty = 0 ∧
    loadString (rowsToString c7State.rows) ≠ c7State.rows.map Row.chars := by
  refine ⟨Reachable.save (Reachable.newline 0 3 (Reachable.openFile none _)),
    ?_, ?_⟩
  · decide
  · decide

/-- C7 (amended): flattening a buffer's lines into one newline-joined blob
(the save operation) and re-loading that blob (splitting on newlines and
stripping trailing CR/LF per line) reproduces exactly the same sequence of
line contents, provided no line contains a newline or ends in a carriage
return.  (Freshly loaded buffers satisfy both conditions, but a reachable
unmodified buffer can violate the second — see the counterexample — so the
condition cannot be dropped.) -/
theorem c7_save_load_roundtrip (rows : List Row)
    (h : ∀ r ∈ rows, '\n' ∉ r.chars ∧ r.chars.getLast? ≠ some '\r') :
    loadString (rowsToString rows) = rows.map Row.chars := by
  induction rows with
  | nil => rfl
  | cons r rs ih =>
    obtain ⟨hn, hr⟩ := h r (List.mem_cons_self r rs)
    have hn2 : r.chars.getLast? ≠ some '\n' := by
      intro hc
      obtain ⟨hne, heq⟩ := List.mem_getLast?_eq_getLast hc
      exact hn (by rw [heq]; exact List.getLast_mem hne)
    have hflat : rowsToString (r :: rs) = r.chars ++ '\n' :: rowsToString rs :=
      rfl
    rw [hflat, loadString_append _ _ hn, stripTrailCRLF_eq_self hr hn2,
      ih (fun r2 hr2 => h r2 (List.mem_cons_of_mem _ hr2))]
    rfl

/-- A one-row buffer whose line is plain ASCII, for the C7 witness. -/
def c7WitnessRows : List Row :=
  [{ idx := 0, chars := "ab".toList, render := [], hl := [],
     hl_open_comment := false }]

theorem c7_witness :
    loadString (rowsToString c7WitnessRows) = c7WitnessRows.map Row.chars :=
  c7_save_load_roundtrip c7WitnessRows (by decide)

end Kilo
